import Mathlib

/-!
# DiceOdds — shallow embedding and verification

Shallow embedding of `DiceOddsLib/DiceOdds.py` (CarrotBRRR/DiceOdds): a
command-line tool that enumerates all outcomes of a list of dice, builds a
sum-frequency table, and optionally samples one roll.

Modelling conventions:
- Python lists/tuples become Lean `List`s; Python `int` becomes `Nat`
  (all quantities in this program are non-negative).
- The float graph-length computation `int((count / max) * 50 + 1)` is
  modelled by an exact simulation of IEEE-754 binary64 arithmetic
  (`float_graph_len`): each operation correctly rounded to 53 significant
  bits, nearest, ties to even, with unbounded exponent range (overflow and
  subnormals are unreachable for this program's count ratios). The
  probability field `count / total` is kept as the exact rational (`Rat`);
  no claim depends on its floating-point value, only on its functional
  dependence on `count` and `total`.
- The regex `\d` is modelled as the ASCII digits `'0'..'9'`, and `str.lower`
  as `Char.toLower` mapped over the characters.
- `sys.exit` / raised `ValueError` become `Except String` results; printed
  output of the driver becomes a list of `OutEvent` values.
- The process-wide random source consumed by `rand.choice` is modelled by an
  arbitrary index `k : Nat`, reduced modulo the list length, so theorems
  quantify over every possible behaviour of the source.
-/

deriving instance DecidableEq for Except

namespace DiceOddsLib

/-- Decimal value of a digit string, as computed by Python `int` on a string
of digits: left fold accumulating `n * 10 + digit`. -/
def string_to_nat (cs : List Char) : Nat :=
  cs.foldl (fun n c => n * 10 + (c.toNat - 48)) 0

/-- `parse_die`, from the source:
```
match = re.fullmatch(r'd(\d+)', arg.lower())
if not match or int(match.group(1)) < 1:
    raise ValueError(f"Invalid die format: {arg}")
return int(match.group(1))
```
The full match of `d(\d+)` against the lowered string means: first character
lowers to `'d'`, the (non-empty) remainder is all digits. -/
def parse_die (arg : String) : Except String Nat :=
  match arg.data.map Char.toLower with
  | c :: rest =>
    if c == 'd' && !rest.isEmpty && rest.all Char.isDigit then
      if string_to_nat rest < 1 then Except.error ("Invalid die format: " ++ arg)
      else Except.ok (string_to_nat rest)
    else Except.error ("Invalid die format: " ++ arg)
  | [] => Except.error ("Invalid die format: " ++ arg)

/-- `arg.startswith('-')`: the string is non-empty and its first character is
`'-'`. -/
def starts_with_dash (arg : String) : Bool :=
  match arg.data with
  | c :: _ => c == '-'
  | [] => false

/-- `parse_args`, from the source: one pass over the arguments, appending each
argument that starts with `'-'` to `flags` and every other argument to
`dice`. (The `try`/`except ValueError` around `dice.append` cannot fire:
`list.append` raises no `ValueError`.) Returns `(dice, flags)`. -/
def parse_args (args : List String) : List String × List String :=
  args.foldl
    (fun acc arg =>
      if starts_with_dash arg then (acc.1, acc.2 ++ [arg])
      else (acc.1 ++ [arg], acc.2))
    ([], [])

/-- The recognized flag tokens (`flag_args` in the source). -/
def flag_args : List String :=
  ["-p", "--prob", "-o", "--occ", "-g", "--graph", "-r", "--roll", "-h", "--help"]

/-- `process_flags`, from the source. The loop exits (`sys.exit(1)`) at the
first flag not in `flag_args`, modelled as `Except.error` carrying that flag.
Otherwise it returns `(show_prob, show_occurrences, show_graph, do_roll,
show_help)`; when `show_help` is set (explicitly, or because no display/roll
flag was given) the four other booleans are reset to `False`. -/
def process_flags (flags : List String) :
    Except String (Bool × Bool × Bool × Bool × Bool) :=
  match flags.find? (fun f => !(flag_args.contains f)) with
  | some f => Except.error f
  | none =>
    let show_prob := flags.contains "-p" || flags.contains "--prob"
    let show_occurrences := flags.contains "-o" || flags.contains "--occ"
    let show_graph := flags.contains "-g" || flags.contains "--graph"
    let do_roll := flags.contains "-r" || flags.contains "--roll"
    let show_help := flags.contains "-h" || flags.contains "--help" ||
      flags.contains "help" ||
      (!show_prob && !show_occurrences && !show_graph && !do_roll)
    if show_help then Except.ok (false, false, false, false, true)
    else Except.ok (show_prob, show_occurrences, show_graph, do_roll, false)

/-- `generate_all_rolls`, from the source:
`list(product(*[range(1, faces + 1) for faces in dice_faces]))`.
`itertools.product` iterates with the first range varying slowest and the
last varying fastest, which is exactly this right-nested `flatMap`.
`List.range' 1 faces` is `[1, 2, ..., faces]`. -/
def generate_all_rolls : List Nat → List (List Nat)
  | [] => [[]]
  | faces :: rest =>
    (List.range' 1 faces).flatMap
      (fun v => (generate_all_rolls rest).map (fun roll => v :: roll))

/-- Number of binary digits of `n` (0 for 0). The first argument is fuel,
instantiated with `n` itself in `bitLen`, which always suffices since the
value halves at each step; this keeps the recursion structural. -/
def bitLenAux : Nat → Nat → Nat
  | 0, _ => 0
  | fuel + 1, n => if n = 0 then 0 else bitLenAux fuel (n / 2) + 1

/-- Number of binary digits of `n`: `⌊log₂ n⌋ + 1` for `n ≥ 1`, `0` for 0. -/
def bitLen (n : Nat) : Nat := bitLenAux n n

/-- Round the exact rational `A / B` to the nearest integer, ties to even —
the rounding step of IEEE-754 round-to-nearest arithmetic. -/
def round_mantissa (A B : Nat) : Nat :=
  let t := A / B
  let r := A % B
  if 2 * r < B then t
  else if B < 2 * r then t + 1
  else if t % 2 = 0 then t else t + 1

/-- The IEEE-754 binary64 quotient of two positive integers, as an exact
dyadic `(mantissa, exponent)` pair (value `mantissa * 2 ^ exponent`): the
exact rational `a / b` is scaled into `[2^52, 2^53)` and its mantissa rounded
to nearest, ties to even — correct rounding to 53 significant bits, as
CPython's int/int true division produces. The exponent range is unbounded
(no overflow or subnormals), which agrees with binary64 for every magnitude
a count ratio of this program can take. -/
def fl_div_pos (a b : Nat) : Nat × Int :=
  let La := bitLen a
  let Lb := bitLen b
  let e0 : Int := 53 + (Lb : Int) - (La : Int)
  let A0 := if La ≤ 53 + Lb then a * 2 ^ (53 + Lb - La) else a
  let B0 := if La ≤ 53 + Lb then b else b * 2 ^ (La - 53 - Lb)
  let s :=
    if A0 < B0 * 2 ^ 52 then (2 * A0, B0, e0 + 1)
    else if A0 < B0 * 2 ^ 53 then (A0, B0, e0)
    else if A0 < B0 * 2 ^ 54 then (A0, 2 * B0, e0 - 1)
    else (A0, 4 * B0, e0 - 2)
  (round_mantissa s.1 s.2.1, -s.2.2)

/-- Round an exact dyadic value `M * 2 ^ e` to 53 significant bits, nearest,
ties to even: the rounding binary64 applies to the exact result of a
multiplication or addition of doubles. -/
def round53 (M : Nat) (e : Int) : Nat × Int :=
  let L := bitLen M
  if L ≤ 53 then (M, e)
  else
    let k := L - 53
    let t := M / 2 ^ k
    let r := M % 2 ^ k
    let half := 2 ^ (k - 1)
    let m :=
      if r < half then t
      else if half < r then t + 1
      else if t % 2 = 0 then t else t + 1
    (m, e + k)

/-- Exact sum of a non-negative dyadic value and `1`. -/
def dyadic_add_one : Nat × Int → Nat × Int
  | (m, Int.ofNat e) => (m * 2 ^ e + 1, 0)
  | (m, Int.negSucc e) => (m + 2 ^ (e + 1), Int.negSucc e)

/-- Truncation of a non-negative dyadic value toward zero: Python `int()`. -/
def dyadic_trunc : Nat × Int → Nat
  | (m, Int.ofNat e) => m * 2 ^ e
  | (m, Int.negSucc e) => m / 2 ^ (e + 1)

/-- `int((c / m) * 50 + 1)` evaluated in IEEE-754 binary64 arithmetic,
exactly as the source's float expression: correctly rounded division
`c / m`, correctly rounded multiplication by 50, correctly rounded addition
of 1, then truncation toward zero. The float rounding is observable: at
`(c, m) = (58, 100)` the double value of `(58/100)*50 + 1` is just below 30,
so the result is 29, although exact arithmetic gives `⌊50·58/100⌋ + 1 = 30`.
(Validated against IEEE evaluation across exhaustive small ranges, random
large operands and tie cases.) -/
def float_graph_len (c m : Nat) : Nat :=
  let x := fl_div_pos c m
  let y := round53 (50 * x.1) x.2
  let w := dyadic_add_one y
  let z := round53 w.1 w.2
  dyadic_trunc z

/-- `get_graph_line`, from the source:
```
if max_occurrences > 50:
    return '=' * int((n_occurrences / max_occurrences) * 50 + 1)
else:
    return '=' * n_occurrences
```
The scaled branch's float expression is modelled by `float_graph_len`, the
exact binary64 evaluation of `int((n / m) * 50 + 1)`. -/
def get_graph_line (n_occurrences max_occurrences : Nat) : String :=
  if 50 < max_occurrences then
    String.mk (List.replicate (float_graph_len n_occurrences max_occurrences) '=')
  else
    String.mk (List.replicate n_occurrences '=')

/-- The multiset of roll sums: `sum(roll) for roll in rolls` in the source's
`process_dice`. -/
def roll_sums (dice_faces : List Nat) : List Nat :=
  (generate_all_rolls dice_faces).map List.sum

/-- `sum_counts[total]` in the source: how many enumerated rolls add up to
`total` (the `Counter` over the roll sums). -/
def sum_count (dice_faces : List Nat) (total : Nat) : Nat :=
  (roll_sums dice_faces).count total

/-- `sorted(sum_counts)` in the source: the distinct achieved sums (keys of
the `Counter`), in ascending order. `dedup` keeps the distinct values and
`insertionSort` orders them. -/
def sorted_sums (dice_faces : List Nat) : List Nat :=
  ((roll_sums dice_faces).dedup).insertionSort (· ≤ ·)

/-- `max(sum_counts.values())` in the source (0 if there are no entries,
where Python would raise on an empty sequence). -/
def max_occurrences (dice_faces : List Nat) : Nat :=
  ((sorted_sums dice_faces).map (sum_count dice_faces)).foldr max 0

/-- One row of the frequency table: the tuple
`(int(total), probability, int(count), graph)` appended by `process_dice`. -/
structure SumEntry where
  total : Nat
  probability : Rat
  count : Nat
  graph : String
deriving DecidableEq

/-- `process_dice`, from the source: enumerate all rolls, count each sum,
then for each sum in ascending order record
`(sum, count / total_combinations, count, get_graph_line(count, max))`.
Returns the table together with `total_combinations = len(rolls)`. -/
def process_dice (dice_faces : List Nat) : List SumEntry × Nat :=
  let total_combinations := (generate_all_rolls dice_faces).length
  let results := (sorted_sums dice_faces).map (fun s =>
    { total := s
      probability := (sum_count dice_faces s : Rat) / (total_combinations : Rat)
      count := sum_count dice_faces s
      graph := get_graph_line (sum_count dice_faces s) (max_occurrences dice_faces) })
  (results, total_combinations)

/-- Sequential parse of the die tokens:
`[parse_die(arg) for arg in dice]` inside `try`, so the first `ValueError`
aborts the whole list. -/
def parse_dice : List String → Except String (List Nat)
  | [] => Except.ok []
  | d :: ds =>
    match parse_die d with
    | Except.error e => Except.error e
    | Except.ok n =>
      match parse_dice ds with
      | Except.error e => Except.error e
      | Except.ok ns => Except.ok (n :: ns)

/-- `rand.choice(lst)` with the random source behaving as index `k`:
every element is picked for some `k`, and no other value is ever picked. -/
def choice (l : List (List Nat)) (k : Nat) : List Nat :=
  l.getD (k % l.length) []

/-- One observable output item of the `DiceOdds` driver. -/
inductive OutEvent where
  | usage : OutEvent
  | invalidFlag : String → OutEvent
  | helpText : OutEvent
  | noDice : OutEvent
  | dieError : String → OutEvent
  | blank : OutEvent
  | tableOut : List String → OutEvent
  | graphOut : OutEvent
  | totalLine : Nat → OutEvent
  | rollLine : Nat → OutEvent
deriving DecidableEq

/-- The table-printing section of `DiceOdds`: the `if`/`elif` chain selecting
which columns of the DataFrame to print, or the dedicated graph printer. -/
def table_section (show_prob show_occurrences show_graph : Bool) : List OutEvent :=
  if show_prob && show_occurrences && show_graph then
    [OutEvent.tableOut ["Sum", "Occurrences", "Probability", "Graph"], OutEvent.blank]
  else if show_prob && show_occurrences then
    [OutEvent.tableOut ["Sum", "Occurrences", "Probability"], OutEvent.blank]
  else if show_prob && show_graph then
    [OutEvent.tableOut ["Sum", "Probability", "Graph"], OutEvent.blank]
  else if show_occurrences && show_graph then
    [OutEvent.tableOut ["Sum", "Occurrences", "Graph"], OutEvent.blank]
  else if show_prob then
    [OutEvent.tableOut ["Sum", "Probability"], OutEvent.blank]
  else if show_occurrences then
    [OutEvent.tableOut ["Sum", "Occurrences"], OutEvent.blank]
  else if show_graph then
    [OutEvent.graphOut, OutEvent.blank]
  else []

/-- The `DiceOdds` driver, from the source, as the list of its observable
output events. `k` models the behaviour of the random source consumed by
`rand.choice` in the roll branch. -/
def DiceOdds (args : List String) (k : Nat) : List OutEvent :=
  if args.isEmpty then [OutEvent.usage]
  else
    let dice := (parse_args args).1
    let flags := (parse_args args).2
    match process_flags flags with
    | Except.error f => [OutEvent.invalidFlag f]
    | Except.ok (show_prob, show_occurrences, show_graph, do_roll, show_help) =>
      if show_help then [OutEvent.helpText]
      else if dice.isEmpty then [OutEvent.noDice]
      else
        match parse_dice dice with
        | Except.error e => [OutEvent.dieError e]
        | Except.ok dice_faces =>
          let pd := process_dice dice_faces
          OutEvent.blank ::
            table_section show_prob show_occurrences show_graph
            ++ (if !do_roll || show_graph || show_occurrences || show_prob then
                  [OutEvent.totalLine pd.2, OutEvent.blank]
                else [])
            ++ (if do_roll then
                  [OutEvent.rollLine (choice (generate_all_rolls dice_faces) k).sum,
                   OutEvent.blank]
                else [])

/-- Modelled from the spec's words, for comparison with `parse_die`
(claim C5): a token of the form `d` followed by one or more decimal digits,
case-insensitive, with numeric value at least 1, parses to that value; every
other token is an invalid-die-format error carrying the offending token. -/
def spec_die_result (arg : String) : Except String Nat :=
  match arg.data with
  | c :: rest =>
    if (c = 'd' || c = 'D') && !rest.isEmpty && rest.all Char.isDigit &&
        1 ≤ string_to_nat rest then
      Except.ok (string_to_nat rest)
    else Except.error ("Invalid die format: " ++ arg)
  | [] => Except.error ("Invalid die format: " ++ arg)

/-- Round `a / b` to the nearest integer, ties to even — the rounding used by
the original language's built-in `round`. -/
def round_div (a b : Nat) : Nat :=
  let q := a / b
  let r := a % b
  if 2 * r < b then q
  else if b < 2 * r then q + 1
  else if q % 2 = 0 then q else q + 1

/-- Modelled from the spec's words, for comparison with `get_graph_line`
(claim C4): a run of the glyph whose length is `count` when the maximum
count is at most 50, and `round(count / max * 50) + 1` when it exceeds 50. -/
def spec_graph_token (count max_count : Nat) : String :=
  if max_count ≤ 50 then String.mk (List.replicate count '=')
  else String.mk (List.replicate (round_div (count * 50) max_count + 1) '=')

/-- Modelled from the amended claim's words, for comparison with
`get_graph_line`: a run of the glyph whose length is `count` when the
maximum count is at most 50, and the truncation toward zero of the IEEE
binary64 evaluation of `count / max * 50 + 1` when the maximum exceeds 50. -/
def spec_graph_token_float (count max_count : Nat) : String :=
  if max_count ≤ 50 then String.mk (List.replicate count '=')
  else String.mk (List.replicate (float_graph_len count max_count) '=')

/-! ## Supporting lemmas -/

/-- Lowercasing fixes decimal digits. -/
theorem toLower_of_isDigit {c : Char} (h : c.isDigit) : c.toLower = c := by
  simp only [Char.isDigit] at h
  have h2 : c.val ≤ 57 := by simpa using Bool.and_elim_right h
  have h3 : c.val.toNat ≤ 57 := h2
  simp only [Char.toLower, Char.toNat]
  rw [if_neg]
  omega

/-- Lowercasing preserves digit-ness. -/
theorem isDigit_toLower (c : Char) : c.toLower.isDigit = c.isDigit := by
  simp only [Char.toLower]
  split
  case isTrue h =>
    obtain ⟨h1, h2⟩ := h
    have hc : c = Char.ofNat (Char.toNat c) := (Char.ofNat_toNat c).symm
    set n := Char.toNat c with hn
    clear_value n
    rw [hc]
    interval_cases n <;> decide
  case isFalse h => rfl

/-- The lowered character is `'d'` exactly when the character is `'d'` or
`'D'`. -/
theorem toLower_eq_d_iff (c : Char) : c.toLower = 'd' ↔ c = 'd' ∨ c = 'D' := by
  simp only [Char.toLower]
  split
  case isTrue h =>
    obtain ⟨h1, h2⟩ := h
    have hc : c = Char.ofNat (Char.toNat c) := (Char.ofNat_toNat c).symm
    set n := Char.toNat c with hn
    clear_value n
    rw [hc]
    interval_cases n <;> decide
  case isFalse h =>
    constructor
    · exact Or.inl
    · rintro (rfl | rfl)
      · rfl
      · exact absurd (by decide) h

/-- Digit strings are fixed pointwise by lowering. -/
theorem map_toLower_of_digits {cs : List Char} (h : cs.all Char.isDigit) :
    cs.map Char.toLower = cs := by
  induction cs with
  | nil => rfl
  | cons c cs ih =>
    simp only [List.all_cons, Bool.and_eq_true] at h
    simp [toLower_of_isDigit h.1, ih h.2]

/-- C5: `parse_die` accepts exactly the tokens consisting of `d` (either
case) followed by one or more decimal digits with numeric value at least 1,
returning that value, and rejects every other token with an
invalid-die-format error carrying the offending token. Stated as: the
translation of the source function agrees with `spec_die_result`, the
function written from the spec's words, on every input string. -/
theorem parse_die_eq_spec (arg : String) : parse_die arg = spec_die_result arg := by
  unfold parse_die spec_die_result
  cases harg : arg.data with
  | nil => rfl
  | cons c rest =>
    by_cases hdig : rest.all Char.isDigit
    · rw [List.map_cons, map_toLower_of_digits hdig]
      simp only [hdig]
      by_cases hd : c.toLower = 'd'
      · have hcd := (toLower_eq_d_iff c).mp hd
        have hd2 : (c.toLower == 'd') = true := beq_iff_eq.mpr hd
        have hcd2 : (decide (c = 'd') || decide (c = 'D')) = true := by
          rcases hcd with rfl | rfl <;> simp
        simp only [hd2, hcd2, Bool.true_and, Bool.and_true]
        by_cases hne : rest.isEmpty
        · simp [hne]
        · have hne2 : rest.isEmpty = false := Bool.eq_false_iff.mpr hne
          simp only [hne2, Bool.not_false, Bool.true_and]
          by_cases hz : string_to_nat rest < 1
          · have hle : decide (1 ≤ string_to_nat rest) = false := by
              simp
              omega
            simp [if_pos hz, hle]
            omega
          · have hle : decide (1 ≤ string_to_nat rest) = true := by
              simp
              omega
            simp [if_neg hz, hle]
            omega
      · have hd2 : (c.toLower == 'd') = false := by
          simp [hd]
        have hcd2 : (decide (c = 'd') || decide (c = 'D')) = false := by
          rw [Bool.or_eq_false_iff]
          constructor <;> simp <;> rintro rfl <;> exact hd (by decide)
        simp [hd2, hcd2]
    · have hmap : (rest.map Char.toLower).all Char.isDigit = false := by
        rw [List.all_map]
        have hcomp : (Char.isDigit ∘ Char.toLower) = Char.isDigit := funext isDigit_toLower
        rw [hcomp]
        exact Bool.eq_false_iff.mpr hdig
      have hdig2 : rest.all Char.isDigit = false := Bool.eq_false_iff.mpr hdig
      simp [hmap, hdig2]

/-- C10: `parse_args` is total and never fails: for every argument list it
returns `(dice, flags)` where `flags` is exactly the subsequence of arguments
beginning with `'-'` in their original order, `dice` is exactly the
subsequence of the remaining arguments in their original order, and hence
every argument lands in exactly one of the two lists. (The `ValueError`
handler in the source wraps `list.append`, which raises no `ValueError`, so
totality holds by construction of the embedding.) -/
theorem parse_args_partitions (args : List String) :
    parse_args args =
      (args.filter (fun a => !(starts_with_dash a)),
       args.filter (fun a => starts_with_dash a)) := by
  suffices h : ∀ (l d f : List String),
      l.foldl
        (fun acc arg =>
          if starts_with_dash arg then (acc.1, acc.2 ++ [arg])
          else (acc.1 ++ [arg], acc.2)) (d, f)
        = (d ++ l.filter (fun a => !(starts_with_dash a)),
           f ++ l.filter (fun a => starts_with_dash a)) by
    simpa [parse_args] using h args [] []
  intro l
  induction l with
  | nil => intro d f; simp
  | cons a as ih =>
    intro d f
    by_cases ha : starts_with_dash a
    · simp [List.foldl_cons, ha, List.filter_cons, ih]
    · simp [List.foldl_cons, ha, List.filter_cons, ih]

/-- The enumeration has exactly `∏ F_i` elements. -/
theorem length_generate_all_rolls (fs : List Nat) :
    (generate_all_rolls fs).length = fs.prod := by
  induction fs with
  | nil => rfl
  | cons f rest ih =>
    rw [generate_all_rolls, List.length_flatMap]
    have h1 : List.map (List.length ∘ fun v => (generate_all_rolls rest).map (fun roll => v :: roll))
          (List.range' 1 f)
        = List.replicate f (generate_all_rolls rest).length := by
      rw [show (List.length ∘ fun v => (generate_all_rolls rest).map (fun roll => v :: roll))
          = fun v => (generate_all_rolls rest).length from funext (fun v => by simp)]
      rw [List.map_const', List.length_range']
    rw [h1, List.sum_replicate, smul_eq_mul, ih, List.prod_cons]

/-- A tuple is enumerated iff it has one entry per die, each within that
die's faces (`Forall₂` forces equal lengths and componentwise bounds). -/
theorem mem_generate_all_rolls {fs r : List Nat} :
    r ∈ generate_all_rolls fs ↔ List.Forall₂ (fun v f => 1 ≤ v ∧ v ≤ f) r fs := by
  induction fs generalizing r with
  | nil => simp [generate_all_rolls, List.forall₂_nil_right_iff]
  | cons f rest ih =>
    simp only [generate_all_rolls, List.mem_flatMap, List.mem_map, List.mem_range'_1]
    constructor
    · rintro ⟨v, ⟨hv1, hv2⟩, t, ht, rfl⟩
      exact List.forall₂_cons.mpr ⟨⟨hv1, by omega⟩, ih.mp ht⟩
    · intro h
      cases r with
      | nil => exact absurd h (by simp)
      | cons v t =>
        obtain ⟨⟨h1, h2⟩, ht⟩ := List.forall₂_cons.mp h
        exact ⟨v, ⟨h1, by omega⟩, t, ih.mpr ht, rfl⟩

/-- The enumeration is strictly increasing in lexicographic order: the first
die varies slowest, the last fastest. -/
theorem sorted_generate_all_rolls (fs : List Nat) :
    List.Sorted (List.Lex (· < ·)) (generate_all_rolls fs) := by
  induction fs with
  | nil => simp [generate_all_rolls]
  | cons f rest ih =>
    rw [generate_all_rolls]
    show List.Pairwise _ _
    rw [List.pairwise_flatMap]
    constructor
    · intro v hv
      exact ih.map _ (fun a b h => List.Lex.cons h)
    · refine (List.pairwise_lt_range' 1 f).imp ?_
      intro a b hab x hx y hy
      obtain ⟨t1, ht1, rfl⟩ := List.mem_map.mp hx
      obtain ⟨t2, ht2, rfl⟩ := List.mem_map.mp hy
      exact List.Lex.rel hab

/-- C2: `generate_all_rolls` returns exactly the Cartesian product of the
ranges `[1..F_i]` — `∏ F_i` tuples, membership exactly the tuples with one
component per die lying in `[1, F_i]`, in strictly increasing lexicographic
order (first die slowest, last die fastest). Strict sortedness together with
the membership characterisation pins the returned list down uniquely. -/
theorem generate_all_rolls_cartesian (fs : List Nat) (h₁ : fs ≠ [])
    (h₂ : ∀ f ∈ fs, 1 ≤ f) :
    (generate_all_rolls fs).length = fs.prod ∧
    List.Sorted (List.Lex (· < ·)) (generate_all_rolls fs) ∧
    ∀ r : List Nat, r ∈ generate_all_rolls fs ↔
      List.Forall₂ (fun v f => 1 ≤ v ∧ v ≤ f) r fs :=
  ⟨length_generate_all_rolls fs, sorted_generate_all_rolls fs,
    fun _ => mem_generate_all_rolls⟩

/-- Witness for C2 at the concrete dice set `[2, 3]`. -/
theorem generate_all_rolls_cartesian_witness :
    (generate_all_rolls [2, 3]).length = ([2, 3] : List Nat).prod ∧
    List.Sorted (List.Lex (· < ·)) (generate_all_rolls [2, 3]) ∧
    ∀ r : List Nat, r ∈ generate_all_rolls [2, 3] ↔
      List.Forall₂ (fun v f => 1 ≤ v ∧ v ≤ f) r [2, 3] :=
  generate_all_rolls_cartesian [2, 3] (by decide) (by decide)

theorem length_roll_sums (fs : List Nat) : (roll_sums fs).length = fs.prod := by
  simp [roll_sums, length_generate_all_rolls]

theorem sorted_sums_perm_dedup (fs : List Nat) :
    (sorted_sums fs).Perm (roll_sums fs).dedup :=
  List.perm_insertionSort _ _

theorem sorted_sums_sorted_le (fs : List Nat) :
    List.Sorted (· ≤ ·) (sorted_sums fs) :=
  List.sorted_insertionSort _ _

theorem sorted_sums_nodup (fs : List Nat) : (sorted_sums fs).Nodup :=
  (sorted_sums_perm_dedup fs).nodup_iff.mpr (List.nodup_dedup _)

theorem sorted_sums_sorted_lt (fs : List Nat) :
    List.Sorted (· < ·) (sorted_sums fs) :=
  (sorted_sums_sorted_le fs).lt_of_le (sorted_sums_nodup fs)

theorem mem_sorted_sums {fs : List Nat} {s : Nat} :
    s ∈ sorted_sums fs ↔ s ∈ roll_sums fs := by
  rw [(sorted_sums_perm_dedup fs).mem_iff, List.mem_dedup]

theorem process_dice_fst_map_total (fs : List Nat) :
    (process_dice fs).1.map SumEntry.total = sorted_sums fs := by
  simp [process_dice, Function.comp_def]

theorem process_dice_fst_map_count (fs : List Nat) :
    (process_dice fs).1.map SumEntry.count = (sorted_sums fs).map (sum_count fs) := by
  simp [process_dice, Function.comp_def]

theorem process_dice_snd (fs : List Nat) : (process_dice fs).2 = fs.prod := by
  simp [process_dice, length_generate_all_rolls]

theorem sum_counts_eq_length (fs : List Nat) :
    ((sorted_sums fs).map (sum_count fs)).sum = (roll_sums fs).length := by
  have hperm := (sorted_sums_perm_dedup fs).map (sum_count fs)
  rw [hperm.sum_eq]
  simpa [sum_count] using List.sum_map_count_dedup_eq_length (roll_sums fs)

/-- C1: for every non-empty list of face counts with each face count at
least 1, the counts of the frequency table sum to the returned total
combination count, and that total equals the product of the face counts. -/
theorem process_dice_counts_total (fs : List Nat) (h₁ : fs ≠ [])
    (h₂ : ∀ f ∈ fs, 1 ≤ f) :
    ((process_dice fs).1.map SumEntry.count).sum = (process_dice fs).2 ∧
    (process_dice fs).2 = fs.prod := by
  refine ⟨?_, process_dice_snd fs⟩
  rw [process_dice_fst_map_count, sum_counts_eq_length, process_dice_snd, length_roll_sums]

/-- Witness for C1 at the concrete dice set `[2, 3]`. -/
theorem process_dice_counts_total_witness :
    (((process_dice [2, 3]).1.map SumEntry.count).sum = (process_dice [2, 3]).2 ∧
      (process_dice [2, 3]).2 = ([2, 3] : List Nat).prod) :=
  process_dice_counts_total [2, 3] (by decide) (by decide)

/-- C3: the frequency table is sorted strictly ascending by sum and its sums
are exactly the values achieved by at least one enumerated roll — no
zero-count sums appear and no sum appears twice (strict sortedness). -/
theorem process_dice_table_strictly_sorted (fs : List Nat) (h₁ : fs ≠ [])
    (h₂ : ∀ f ∈ fs, 1 ≤ f) :
    List.Sorted (· < ·) ((process_dice fs).1.map SumEntry.total) ∧
    ∀ s : Nat, s ∈ (process_dice fs).1.map SumEntry.total ↔
      ∃ r ∈ generate_all_rolls fs, r.sum = s := by
  rw [process_dice_fst_map_total]
  refine ⟨sorted_sums_sorted_lt fs, fun s => ?_⟩
  rw [mem_sorted_sums]
  simp [roll_sums]

/-- Witness for C3 at the concrete dice set `[2, 3]`. -/
theorem process_dice_table_strictly_sorted_witness :
    List.Sorted (· < ·) ((process_dice [2, 3]).1.map SumEntry.total) ∧
    ∀ s : Nat, s ∈ (process_dice [2, 3]).1.map SumEntry.total ↔
      ∃ r ∈ generate_all_rolls [2, 3], r.sum = s :=
  process_dice_table_strictly_sorted [2, 3] (by decide) (by decide)

theorem roll_sum_bounds {fs r : List Nat}
    (h : List.Forall₂ (fun v f => 1 ≤ v ∧ v ≤ f) r fs) :
    fs.length ≤ r.sum ∧ r.sum ≤ fs.sum := by
  induction h with
  | nil => simp
  | cons hvf hrest ih =>
    simp only [List.sum_cons, List.length_cons]
    obtain ⟨hv1, hv2⟩ := hvf
    omega

theorem exists_roll_with_sum {fs : List Nat} (h₁ : fs ≠ [])
    (h₂ : ∀ f ∈ fs, 1 ≤ f) {s : Nat} (hs1 : fs.length ≤ s) (hs2 : s ≤ fs.sum) :
    ∃ r ∈ generate_all_rolls fs, r.sum = s := by
  induction fs generalizing s with
  | nil => exact absurd rfl h₁
  | cons f rest ih =>
    simp only [List.length_cons, List.sum_cons] at hs1 hs2
    rcases eq_or_ne rest [] with rfl | hne
    · refine ⟨[s], ?_, by simp⟩
      rw [mem_generate_all_rolls]
      simp only [List.length_nil, List.sum_nil] at hs1 hs2
      refine List.forall₂_cons.mpr ⟨⟨by omega, by omega⟩, List.Forall₂.nil⟩
    · have hf : 1 ≤ f := h₂ f (by simp)
      have hrest : ∀ g ∈ rest, 1 ≤ g := fun g hg => h₂ g (List.mem_cons_of_mem f hg)
      have hlen : rest.length ≤ rest.sum := List.length_le_sum_of_one_le rest hrest
      have hrl : 1 ≤ rest.length := by
        cases rest with
        | nil => exact absurd rfl hne
        | cons a l => simp
      set v := max 1 (s - rest.sum) with hv
      have hv1 : 1 ≤ v := le_max_left _ _
      have hvf : v ≤ f := by omega
      have h3 : rest.length ≤ s - v := by omega
      have h4 : s - v ≤ rest.sum := by omega
      obtain ⟨r, hr, hsum⟩ := ih hne hrest h3 h4
      refine ⟨v :: r, ?_, ?_⟩
      · rw [mem_generate_all_rolls] at hr ⊢
        exact List.forall₂_cons.mpr ⟨⟨hv1, hvf⟩, hr⟩
      · simp only [List.sum_cons, hsum]
        omega

theorem mem_roll_sums_iff {fs : List Nat} (h₁ : fs ≠ [])
    (h₂ : ∀ f ∈ fs, 1 ≤ f) {s : Nat} :
    s ∈ roll_sums fs ↔ fs.length ≤ s ∧ s ≤ fs.sum := by
  constructor
  · intro hs
    obtain ⟨r, hr, rfl⟩ := List.mem_map.mp hs
    exact roll_sum_bounds (mem_generate_all_rolls.mp hr)
  · rintro ⟨hs1, hs2⟩
    obtain ⟨r, hr, hsum⟩ := exists_roll_with_sum h₁ h₂ hs1 hs2
    exact List.mem_map.mpr ⟨r, hr, hsum⟩

theorem sorted_sums_length {fs : List Nat} (h₁ : fs ≠ [])
    (h₂ : ∀ f ∈ fs, 1 ≤ f) :
    (sorted_sums fs).length = fs.sum - fs.length + 1 := by
  have hfin : (sorted_sums fs).toFinset = Finset.Icc fs.length fs.sum := by
    refine Finset.ext fun s => ?_
    rw [List.mem_toFinset, mem_sorted_sums, mem_roll_sums_iff h₁ h₂, Finset.mem_Icc]
  have hlen : fs.length ≤ fs.sum := List.length_le_sum_of_one_le fs h₂
  have hcard := List.toFinset_card_of_nodup (sorted_sums_nodup fs)
  rw [hfin, Nat.card_Icc] at hcard
  omega

/-- C9: the frequency table has no gaps — every integer in
`[n, Σ F_i]` is achieved and appears as an entry, so the table has exactly
`Σ F_i − n + 1` entries (the spec's allowance for omitted zero-count sums
never applies for dice with faces `1..F`). -/
theorem process_dice_covers_interval (fs : List Nat) (h₁ : fs ≠ [])
    (h₂ : ∀ f ∈ fs, 1 ≤ f) :
    (∀ s : Nat, s ∈ (process_dice fs).1.map SumEntry.total ↔
      fs.length ≤ s ∧ s ≤ fs.sum) ∧
    (process_dice fs).1.length = fs.sum - fs.length + 1 := by
  constructor
  · intro s
    rw [process_dice_fst_map_total, mem_sorted_sums, mem_roll_sums_iff h₁ h₂]
  · have hmap : (process_dice fs).1.length
        = ((process_dice fs).1.map SumEntry.total).length := by
      rw [List.length_map]
    rw [hmap, process_dice_fst_map_total, sorted_sums_length h₁ h₂]

/-- Witness for C9 at the concrete dice set `[2, 3]`. -/
theorem process_dice_covers_interval_witness :
    (∀ s : Nat, s ∈ (process_dice [2, 3]).1.map SumEntry.total ↔
      ([2, 3] : List Nat).length ≤ s ∧ s ≤ ([2, 3] : List Nat).sum) ∧
    (process_dice [2, 3]).1.length
      = ([2, 3] : List Nat).sum - ([2, 3] : List Nat).length + 1 :=
  process_dice_covers_interval [2, 3] (by decide) (by decide)

theorem roll_sums_cons (f : Nat) (rest : List Nat) :
    roll_sums (f :: rest)
      = (List.range' 1 f).flatMap (fun v => (roll_sums rest).map (v + ·)) := by
  simp [roll_sums, generate_all_rolls, List.map_flatMap, List.map_map, Function.comp_def]

theorem roll_sums_perm {fs₁ fs₂ : List Nat} (h : fs₁.Perm fs₂) :
    (roll_sums fs₁).Perm (roll_sums fs₂) := by
  induction h with
  | nil => exact List.Perm.refl _
  | cons x h ih =>
    rw [roll_sums_cons, roll_sums_cons]
    exact List.Perm.flatMap_left _ (fun a _ => ih.map _)
  | swap x y l =>
    rw [roll_sums_cons, roll_sums_cons, roll_sums_cons, roll_sums_cons]
    rw [← Multiset.coe_eq_coe]
    simp only [← Multiset.coe_bind, ← Multiset.map_coe]
    simp only [Multiset.map_bind, Multiset.map_map, Function.comp_def]
    rw [Multiset.bind_bind]
    simp [Nat.add_left_comm]
  | trans h₁ h₂ ih₁ ih₂ => exact ih₁.trans ih₂

theorem sum_count_perm {fs₁ fs₂ : List Nat} (h : fs₁.Perm fs₂) :
    sum_count fs₁ = sum_count fs₂ :=
  funext fun s => (roll_sums_perm h).count_eq s

theorem sorted_sums_perm_eq {fs₁ fs₂ : List Nat} (h : fs₁.Perm fs₂) :
    sorted_sums fs₁ = sorted_sums fs₂ :=
  List.eq_of_perm_of_sorted
    ((sorted_sums_perm_dedup fs₁).trans
      (((roll_sums_perm h).dedup).trans (sorted_sums_perm_dedup fs₂).symm))
    (sorted_sums_sorted_le fs₁) (sorted_sums_sorted_le fs₂)

theorem max_occurrences_perm {fs₁ fs₂ : List Nat} (h : fs₁.Perm fs₂) :
    max_occurrences fs₁ = max_occurrences fs₂ := by
  unfold max_occurrences
  rw [sorted_sums_perm_eq h, sum_count_perm h]

/-- C7: `process_dice` is invariant under permuting the dice: the frequency
table (sums, probabilities, counts and graph tokens, in order) and the total
combination count are identical for any reordering of the face counts. -/
theorem process_dice_perm_invariant (fs₁ fs₂ : List Nat) (h₁ : fs₁ ≠ [])
    (h₂ : ∀ f ∈ fs₁, 1 ≤ f) (hp : fs₁.Perm fs₂) :
    process_dice fs₁ = process_dice fs₂ := by
  have htot : (generate_all_rolls fs₁).length = (generate_all_rolls fs₂).length := by
    rw [length_generate_all_rolls, length_generate_all_rolls, hp.prod_eq]
  simp only [process_dice]
  rw [sorted_sums_perm_eq hp, sum_count_perm hp, max_occurrences_perm hp, htot]

/-- Witness for C7 at the concrete dice sets `[2, 3]` and `[3, 2]`. -/
theorem process_dice_perm_invariant_witness :
    process_dice [2, 3] = process_dice [3, 2] :=
  process_dice_perm_invariant [2, 3] [3, 2] (by decide) (by decide) (by decide)

/-- Counterexample to C4 as stated: at count 1 and maximum count 64 the code
produces one glyph (`int(1/64 * 50 + 1) = int(1.78125) = 1`, every float
operation being exact here since all values are dyadic with short mantissas),
while the claimed `round(1/64 * 50) + 1 = round(0.78125) + 1 = 2`. The code
truncates the float value; it does not round to nearest. -/
theorem get_graph_line_not_round :
    get_graph_line 1 64 ≠ spec_graph_token 1 64 := by decide

/-- The binary64 truncation is not exact-arithmetic floor either: at count 58
and maximum count 100 the double value of `(58/100)*50 + 1` falls just below
30, so the program renders 29 glyphs where exact arithmetic would give
`⌊50·58/100⌋ + 1 = 30`. -/
theorem get_graph_line_at_58_100 :
    get_graph_line 58 100 = String.mk (List.replicate 29 '=') := by decide

/-- C4 as amended: for `1 ≤ c ≤ m` the graph token is a run of the `'='`
glyph whose length is `c` when `m ≤ 50`, and, when `m > 50`, the truncation
toward zero (not the rounding to nearest) of the IEEE binary64 evaluation of
`c / m * 50 + 1` — stated as agreement with `spec_graph_token_float`, the
token built from those words. -/
theorem get_graph_line_trunc_float (c m : Nat) (h₁ : 1 ≤ c) (h₂ : c ≤ m) :
    get_graph_line c m = spec_graph_token_float c m := by
  unfold get_graph_line spec_graph_token_float
  rcases le_or_lt m 50 with h | h
  · rw [if_neg (by omega), if_pos h]
  · rw [if_pos h, if_neg (by omega)]

/-- Witness for the amended C4 at count 58, maximum count 100, where the
float truncation visibly differs from exact floor (29 glyphs, not 30). -/
theorem get_graph_line_trunc_float_witness :
    get_graph_line 58 100 = spec_graph_token_float 58 100 :=
  get_graph_line_trunc_float 58 100 (by decide) (by decide)

theorem parse_die_ok_pos {a : String} {n : Nat} (h : parse_die a = Except.ok n) :
    1 ≤ n := by
  unfold parse_die at h
  split at h
  · split at h
    · split at h
      · exact absurd h (by simp)
      · next hz =>
        obtain rfl : string_to_nat _ = n := by simpa using h
        omega
    · exact absurd h (by simp)
  · exact absurd h (by simp)

theorem parse_dice_ok_facts {ds : List String} {ns : List Nat}
    (h : parse_dice ds = Except.ok ns) :
    ns.length = ds.length ∧ ∀ n ∈ ns, 1 ≤ n := by
  induction ds generalizing ns with
  | nil =>
    obtain rfl : [] = ns := by simpa [parse_dice] using h
    simp
  | cons d ds ih =>
    unfold parse_dice at h
    split at h
    · exact absurd h (by simp)
    · next m hm =>
      split at h
      · exact absurd h (by simp)
      · next ms hms =>
        obtain rfl : m :: ms = ns := by simpa using h
        obtain ⟨hlen, hall⟩ := ih hms
        refine ⟨by simp [hlen], ?_⟩
        intro n hn
        rcases List.mem_cons.mp hn with rfl | hn
        · exact parse_die_ok_pos hm
        · exact hall n hn

theorem choice_mem {l : List (List Nat)} (h : l ≠ []) (k : Nat) :
    choice l k ∈ l := by
  unfold choice
  have hlen : 0 < l.length := List.length_pos.mpr h
  rw [List.getD_eq_getElem l [] (Nat.mod_lt k hlen)]
  exact List.getElem_mem _

theorem DiceOdds_valid_output (args : List String) (k : Nat)
    (p o g r : Bool) (faces : List Nat)
    (h0 : args ≠ [])
    (h1 : process_flags (parse_args args).2 = Except.ok (p, o, g, r, false))
    (h2 : (parse_args args).1 ≠ [])
    (h3 : parse_dice (parse_args args).1 = Except.ok faces) :
    DiceOdds args k = OutEvent.blank ::
      table_section p o g
      ++ (if !r || g || o || p then
            [OutEvent.totalLine (process_dice faces).2, OutEvent.blank]
          else [])
      ++ (if r then
            [OutEvent.rollLine (choice (generate_all_rolls faces) k).sum,
             OutEvent.blank]
          else []) := by
  have hempty : args.isEmpty = false := by simpa [List.isEmpty_iff] using h0
  have hde : (parse_args args).1.isEmpty = false := by
    simpa [List.isEmpty_iff] using h2
  simp only [DiceOdds, hempty, h1, hde, h3]
  simp

/-- C6: for every valid non-help invocation (arguments non-empty, flags
recognized with `show_help` false, dice tokens present and parsing), a
"Total combinations" line appears in the output exactly when `do_roll` is
false or one of `show_prob`, `show_occurrences`, `show_graph` is true; in
particular a roll-only invocation prints no total-combinations line. -/
theorem total_line_iff (args : List String) (k : Nat)
    (p o g r : Bool) (faces : List Nat)
    (h0 : args ≠ [])
    (h1 : process_flags (parse_args args).2 = Except.ok (p, o, g, r, false))
    (h2 : (parse_args args).1 ≠ [])
    (h3 : parse_dice (parse_args args).1 = Except.ok faces) :
    (∃ t, OutEvent.totalLine t ∈ DiceOdds args k) ↔
      (r = false ∨ p = true ∨ o = true ∨ g = true) := by
  rw [DiceOdds_valid_output args k p o g r faces h0 h1 h2 h3]
  cases p <;> cases o <;> cases g <;> cases r <;> simp [table_section]

/-- Witness for C6: the roll-only invocation `d4 -r` (with any random
behaviour, here `k = 0`) has no total-combinations line. -/
theorem total_line_iff_witness :
    (∃ t, OutEvent.totalLine t ∈ DiceOdds ["d4", "-r"] 0) ↔
      (true = false ∨ false = true ∨ false = true ∨ false = true) :=
  total_line_iff ["d4", "-r"] 0 false false false true [4]
    (by decide) (by decide) (by decide) (by decide)

/-- C8: for every valid invocation and every behaviour `k` of the random
source, any printed roll value is the sum of one element of the full outcome
space, and therefore lies in `[n, Σ F_i]`. -/
theorem roll_line_in_range (args : List String) (k : Nat)
    (p o g r : Bool) (faces : List Nat)
    (h0 : args ≠ [])
    (h1 : process_flags (parse_args args).2 = Except.ok (p, o, g, r, false))
    (h2 : (parse_args args).1 ≠ [])
    (h3 : parse_dice (parse_args args).1 = Except.ok faces) :
    ∀ v : Nat, OutEvent.rollLine v ∈ DiceOdds args k →
      (∃ roll ∈ generate_all_rolls faces, v = roll.sum) ∧
      faces.length ≤ v ∧ v ≤ faces.sum := by
  obtain ⟨hlen, hall⟩ := parse_dice_ok_facts h3
  have hfne : faces ≠ [] := by
    intro hf
    apply h2
    rw [hf] at hlen
    exact List.length_eq_zero.mp hlen.symm
  have hprod : 0 < faces.prod := List.prod_pos hall
  have hne : generate_all_rolls faces ≠ [] := by
    intro hnil
    have hl := length_generate_all_rolls faces
    rw [hnil] at hl
    simp at hl
    omega
  have hch := choice_mem hne k
  have hbounds := roll_sum_bounds (mem_generate_all_rolls.mp hch)
  intro v hv
  rw [DiceOdds_valid_output args k p o g r faces h0 h1 h2 h3] at hv
  have hveq : v = (choice (generate_all_rolls faces) k).sum := by
    cases p <;> cases o <;> cases g <;> cases r <;>
      simp [table_section] at hv <;> exact hv
  subst hveq
  exact ⟨⟨choice (generate_all_rolls faces) k, hch, rfl⟩, hbounds⟩

/-- Witness for C8: with a single `d4` and `k = 0` the printed roll value 1
is the sum of an enumerated outcome and lies in `[1, 4]`. -/
theorem roll_line_in_range_witness :
    (∃ roll ∈ generate_all_rolls [4], 1 = roll.sum) ∧
    ([4] : List Nat).length ≤ 1 ∧ 1 ≤ ([4] : List Nat).sum :=
  roll_line_in_range ["d4", "-r"] 0 false false false true [4]
    (by decide) (by decide) (by decide) (by decide) 1 (by decide)

end DiceOddsLib
